import Mathlib

/-!
# HellfireOS — verification of the task-kernel specification

A shallow embedding, in Lean 4, of the parts of the HellfireOS sources
(`sys/kernel/main.c`, `lib/libc/libc.c`, `app/noc_test/noc_test.c`) that the
specification talks about, together with theorems that settle the spec's
claims against the code.

Conventions:
* C machine integers are modelled as `Nat`/`Int`, with an explicit `% 2 ^ 32`
  at every left shift that can overflow in the C source.
* C strings are modelled as byte streams `Nat → Int` (a C string is always
  NUL-terminated, so every dereference the code performs is in bounds).
* `while`/`do-while` loops are modelled by fueled recursion, and the proofs
  show that the chosen fuel is never exhausted on the inputs of interest.
* Truncating (toward-zero) C division on `int32_t` is `Int.tdiv` / `Int.tmod`.
-/

/-! ## `lib/libc/libc.c` -/

/-- `strncmp(s1, s2, n)` from `libc.c`.  The two strings are byte streams, `i`
is the common offset of the two pointers (both are advanced in lockstep), and
`n` counts down exactly as in the C loop `while (--n >= 0 && *s1 == *s2++)`.
The guard is evaluated before any dereference, mirroring C's short-circuit
evaluation; on normal exhaustion the C return `n < 0 ? 0 : *s1 - *--s2`
yields `0` because `n` has just become negative. -/
def strncmpAux (s1 s2 : Nat → Int) (n : Int) (i : Nat) : Int :=
  if 0 ≤ n - 1 then
    if s1 i = s2 i then
      if s1 i = 0 then 0
      else strncmpAux s1 s2 (n - 1) (i + 1)
    else s1 i - s2 i
  else 0
termination_by n.toNat
decreasing_by omega

/-- `strncmp` entry point: both pointers start at offset `0`. -/
def strncmp (s1 s2 : Nat → Int) (n : Int) : Int :=
  strncmpAux s1 s2 n 0

/-- The first loop of `__udivmodsi4`:
`while (den < num && bit && !(den & (1L << 31))) { den <<= 1; bit <<= 1; }`.
Left shifts are `uint32_t`, hence the `% 2 ^ 32`.  `num` is read but not
written by this loop; the result is the pair `(den, bit)`. -/
def udivShiftLoop : Nat → Nat → Nat → Nat → Nat × Nat
  | 0, _num, den, bit => (den, bit)
  | fuel + 1, num, den, bit =>
    if den < num ∧ bit ≠ 0 ∧ den &&& (1 <<< 31) = 0 then
      udivShiftLoop fuel num ((den <<< 1) % 2 ^ 32) ((bit <<< 1) % 2 ^ 32)
    else (den, bit)

/-- The second loop of `__udivmodsi4`:
`while (bit) { if (num >= den) { num -= den; res |= bit; } bit >>= 1; den >>= 1; }`.
The result is the pair `(num, res)`. -/
def udivBitLoop : Nat → Nat → Nat → Nat → Nat → Nat × Nat
  | 0, num, _den, _bit, res => (num, res)
  | fuel + 1, num, den, bit, res =>
    if bit ≠ 0 then
      let p := if den ≤ num then (num - den, res ||| bit) else (num, res)
      udivBitLoop fuel p.1 (den >>> 1) (bit >>> 1) p.2
    else (num, res)

/-- `__udivmodsi4(num, den, modwanted)` from `libc.c`.  The first loop runs at
most 31 times (each pass doubles `den`, which starts at `den ≥ 1` when the
divisor is nonzero, and stops as soon as bit 31 of `den` is set), so fuel 32
is never exhausted; the second loop halves `bit = 2 ^ k` (`k ≤ 31`) down to
`0`, so fuel 33 is never exhausted.  `modwanted` is a C truth value:
`if (modwanted) return num; return res;`. -/
def udivmodsi4 (num den : Nat) (modwanted : Int) : Nat :=
  let s := udivShiftLoop 32 num den 1
  let r := udivBitLoop 33 num s.1 s.2 0
  if modwanted ≠ 0 then r.1 else r.2

/-- The lookup table of `itoa`, exactly the string literal indexed in
`libc.c` (`"zyx…210123…xyz"[35 + (tmp_value - i * base)]`). -/
def itoaTable : List Char :=
  "zyxwvutsrqponmlkjihgfedcba9876543210123456789abcdefghijklmnopqrstuvwxyz".toList

/-- One table lookup of `itoa`; the C index `35 + (tmp_value - i * base)` is
always in bounds for `2 ≤ base ≤ 36`, so the default is never produced. -/
def itoaChar (k : Int) : Char :=
  itoaTable.getD k.toNat ' '

/-- The `do { tmp_value = i; i /= base; *ptr++ = …; } while (i);` loop of
`itoa`, producing the characters in the order they are written (least
significant digit first) together with the final value of `tmp_value`
(whose sign decides whether `'-'` is appended).  `int32_t` division
truncates toward zero, i.e. is `Int.tdiv`. -/
def itoaLoop (base : Int) : Nat → Int → List Char × Int
  | 0, i => ([], i)
  | fuel + 1, i =>
    let q := i.tdiv base
    let d := itoaChar (35 + (i - q * base))
    if q = 0 then ([d], i)
    else
      let r := itoaLoop base fuel q
      (d :: r.1, r.2)

/-- `itoa(i, s, base)` from `libc.c`, as the character content written into
`s` before the terminating NUL.  For `base` outside `[2, 36]` the function
stores only `'\0'`, i.e. the empty string.  Otherwise the digit characters
are emitted least-significant first, `'-'` is appended when the last
`tmp_value` is negative, and the buffer is reversed in place; the final
content is therefore the reverse of the write sequence.  Fuel 33 covers the
at most 32 iterations a 32-bit value can take (base ≥ 2). -/
def itoa (i : Int) (base : Int) : List Char :=
  if base < 2 ∨ 36 < base then []
  else
    let r := itoaLoop base 33 i
    (if r.2 < 0 then r.1 ++ ['-'] else r.1).reverse

/-- The standard character for the digit value `d < 36` (decimal digits then
lowercase letters), used to state what `itoa` should print. -/
def digitChar36 (d : Nat) : Char :=
  "0123456789abcdefghijklmnopqrstuvwxyz".toList.getD d ' '

/-- Specification-side rendering of an integer, following the spec's words:
the standard base-`base` digit string of `i`, most significant digit first,
preceded by `'-'` when `i` is negative. -/
def itoaSpec (i : Int) (base : Int) : List Char :=
  (if i < 0 then ['-'] else []) ++
    ((if i = 0 then [0] else Nat.digits base.toNat i.natAbs).map digitChar36).reverse

/-! ## `sys/kernel/main.c` — data model -/

/-- Task states named in `kernel.h` and used by `main.c`. -/
inductive TaskState where
  | TASK_IDLE
  | TASK_READY
  | TASK_RUNNING
  | TASK_BLOCKED
  | TASK_DELAYED
deriving DecidableEq, Repr

/-- Entry points spawned anywhere in the sources, used as function-pointer
values. -/
inductive TaskEntry where
  | idletask
  | polling_server_task
  | aperiodic_task_generator
  | dummy_task
  | sender
  | receiver
deriving DecidableEq, Repr

/-- The task control block, with exactly the fields `clear_tcb` initializes.
`name` is the fixed-size name buffer (a list of bytes), `ptask` the entry
function pointer and `pstack` the owned stack (`none` models `NULL`). -/
structure TCB where
  id : Int
  name : List Int
  state : TaskState
  priority : Int
  priority_rem : Int
  delay : Int
  rtjobs : Int
  bgjobs : Int
  deadline_misses : Int
  period : Int
  capacity : Int
  deadline : Int
  capacity_rem : Int
  deadline_rem : Int
  ptask : Option TaskEntry
  pstack : Option Unit
  stack_size : Int
  other_data : Int
deriving DecidableEq, Repr

/-- The TCB value each slot holds after one pass of the `clear_tcb` loop
body: `id = -1`, zeroed name buffer, `TASK_IDLE`, every numeric field `0`,
`ptask = pstack = NULL`. -/
def cleared_tcb (nameLen : Nat) : TCB :=
  { id := -1
    name := List.replicate nameLen 0
    state := .TASK_IDLE
    priority := 0
    priority_rem := 0
    delay := 0
    rtjobs := 0
    bgjobs := 0
    deadline_misses := 0
    period := 0
    capacity := 0
    deadline := 0
    capacity_rem := 0
    deadline_rem := 0
    ptask := none
    pstack := none
    stack_size := 0
    other_data := 0 }

/-- The `for (i = 0; i < MAX_TASKS; i++)` loop of `clear_tcb`, clearing the
slots `0, …, k - 1` of the table `tbl`. -/
def clear_tcb_loop (nameLen : Nat) (tbl : Nat → TCB) : Nat → (Nat → TCB)
  | 0 => tbl
  | k + 1 => Function.update (clear_tcb_loop nameLen tbl k) k (cleared_tcb nameLen)

/-- `clear_tcb` from `main.c`: clears all `maxTasks` slots of the TCB table
and resets the globals `krnl_tasks`, `krnl_current_task`, `krnl_schedule`
to `0`. -/
def clear_tcb (maxTasks nameLen : Nat) (tbl : Nat → TCB) :
    (Nat → TCB) × Nat × Nat × Nat :=
  (clear_tcb_loop nameLen tbl maxTasks, 0, 0, 0)

/-- Scheduler-selector function pointers stored in the PCB. -/
inductive SchedAlg where
  | sched_rma
  | sched_priorityrr
deriving DecidableEq, Repr

/-- The process control block, with exactly the fields `clear_pcb` sets. -/
structure PCB where
  sched_rt : SchedAlg
  sched_be : SchedAlg
  coop_cswitch : Nat
  preempt_cswitch : Nat
  interrupts : Nat
  tick_time : Nat
deriving DecidableEq, Repr

/-- `clear_pcb` from `main.c`. -/
def clear_pcb : PCB :=
  { sched_rt := .sched_rma
    sched_be := .sched_priorityrr
    coop_cswitch := 0
    preempt_cswitch := 0
    interrupts := 0
    tick_time := 0 }

/-- Panic codes (spec §6.4): out-of-memory, general protection fault, abort
on early return from init, scheduler invariant violation, unknown. -/
inductive PanicCode where
  | PANIC_OOM
  | PANIC_GPF
  | PANIC_ABORTED
  | PANIC_SCHED
  | PANIC_UNKNOWN
deriving DecidableEq, Repr

/-- A kernel queue handle; only its fixed capacity is observable here. -/
structure KQueue where
  capacity : Nat
deriving DecidableEq, Repr

/-- Modelled from the spec: `hf_queue_create(capacity)` (the queue library is
not part of the given sources) creates a fixed-capacity FIFO ring and
returns `NULL` when allocation fails; the boolean `ok` abstracts whether
this particular allocation succeeds. -/
def hf_queue_create (ok : Bool) (capacity : Nat) : Option KQueue :=
  if ok then some ⟨capacity⟩ else none

/-- `init_queues` from `main.c`: creates the run, delay, real-time and
aperiodic queues, each with capacity `MAX_TASKS`, panicking with
`PANIC_OOM` at the first failed creation.  `ok n` tells whether the `n`-th
creation (in program order) succeeds. -/
def init_queues (maxTasks : Nat) (ok : Nat → Bool) :
    Except PanicCode (KQueue × KQueue × KQueue × KQueue) :=
  match hf_queue_create (ok 0) maxTasks with
  | none => .error .PANIC_OOM
  | some run_queue =>
  match hf_queue_create (ok 1) maxTasks with
  | none => .error .PANIC_OOM
  | some delay_queue =>
  match hf_queue_create (ok 2) maxTasks with
  | none => .error .PANIC_OOM
  | some rt_queue =>
  match hf_queue_create (ok 3) maxTasks with
  | none => .error .PANIC_OOM
  | some aperiodic_queue => .ok (run_queue, delay_queue, rt_queue, aperiodic_queue)

/-- One call of `hf_spawn(entry, a, b, c, name, stack_size)` as it appears at
a call site.  The field names follow the spec's contract
`spawn(entry, period, priority, capacity, name, stack_size)`, so `period`
is the 2nd argument, `priority` the 3rd and `capacity` the 4th. -/
structure SpawnCall where
  entry : TaskEntry
  period : Int
  priority : Int
  capacity : Int
  name : String
  stack_size : Int
deriving DecidableEq, Repr

/-- The three `hf_spawn` calls the kernel `main` performs during boot, in
program order: `hf_spawn(idletask, 0, 0, 0, "idle task", 1024)`,
`hf_spawn(polling_server_task, 20, 6, 20, "polling server", 1024)`,
`hf_spawn(aperiodic_task_generator, 10, 2, 10, "aperiodic task generator", 1024)`. -/
def main_spawns : List SpawnCall :=
  [⟨.idletask, 0, 0, 0, "idle task", 1024⟩,
   ⟨.polling_server_task, 20, 6, 20, "polling server", 1024⟩,
   ⟨.aperiodic_task_generator, 10, 2, 10, "aperiodic task generator", 1024⟩]

/-! ## `sys/kernel/main.c` — polling server -/

/-- An entry of the aperiodic queue, as used by `polling_server_task`: its
task id and its remaining required capacity (`int16_t`). -/
structure AperiodicEntry where
  id : Int
  capacity : Int
deriving DecidableEq, Repr

/-- Modelled from the spec: `polling_server_scheduler()` (not part of the
given sources) pops the head of the aperiodic queue (spec §4.5: "Pop the
head"). -/
def polling_server_scheduler (q : List AperiodicEntry) :
    Option (AperiodicEntry × List AperiodicEntry) :=
  match q with
  | [] => none
  | e :: rest => some (e, rest)

/-- The refill at the top of the server loop:
`if (server_fuel == 0) server_fuel = SERVER_CAPACITY;`. -/
def serverRefill (fuel C : Int) : Int :=
  if fuel = 0 then C else fuel

/-- Lines 135–142 of `main.c`: the budget decision once `next_aperiodic` has
been selected.  Returns the new `server_fuel`, the new remainder of the
aperiodic queue, and whether the entry was pushed back on the tail. -/
def serveEntry (fuel : Int) (e : AperiodicEntry) (q : List AperiodicEntry) :
    Int × List AperiodicEntry × Bool :=
  if e.capacity ≤ fuel then
    (fuel - e.capacity, q, false)
  else
    (0, q ++ [{ e with capacity := e.capacity - fuel }], true)

/-- What one pass of the server loop does, observably. -/
inductive ServerAction where
  | serveYield
  | serveRun (id : Int) (requeued : Bool)
deriving DecidableEq, Repr

/-- One iteration of the `for (;;)` loop of `polling_server_task`: refill the
fuel if it is exhausted, yield when the aperiodic queue is empty, otherwise
select an entry and run it under the budget rule `serveEntry`.  Returns the
`server_fuel` carried into the next iteration, the new queue, and the action
taken. -/
def serverIterate (C fuel : Int) (q : List AperiodicEntry) :
    Int × List AperiodicEntry × ServerAction :=
  let fuel1 := serverRefill fuel C
  if q.length = 0 then (fuel1, q, .serveYield)
  else
    match polling_server_scheduler q with
    | none => (fuel1, q, .serveYield)
    | some (e, rest) =>
      let r := serveEntry fuel1 e rest
      (r.1, r.2.1, .serveRun e.id r.2.2)

/-! ## `app/noc_test/noc_test.c` -/

/-- The constant parameters of the `hf_sendack` call in `sender`'s loop:
`hf_sendack(3, 5000, buf, sizeof(buf), 0, 500)` with `int8_t buf[1500]`. -/
structure SendackCall where
  target_cpu : Int
  target_port : Int
  size : Int
  channel : Int
  timeout : Int
deriving DecidableEq, Repr

/-- The receive primitives of the messaging API. -/
inductive RecvKind where
  | recv
  | recvack
deriving DecidableEq, Repr

/-- The `sender` task of `noc_test.c`, by its observable communication
behavior: it creates a mailbox on port `1000`, then loops forever sending
the 1500-byte buffer with `hf_sendack`. -/
structure SenderBehavior where
  comm_port : Int
  buf_size : Int
  sendack : SendackCall
deriving DecidableEq, Repr

def sender : SenderBehavior :=
  { comm_port := 1000
    buf_size := 1500
    sendack := { target_cpu := 3, target_port := 5000, size := 1500,
                 channel := 0, timeout := 500 } }

/-- The `receiver` task of `noc_test.c`: it creates (owns) the mailbox on
port `5000` and loops forever receiving with `hf_recvack`. -/
structure ReceiverBehavior where
  comm_port : Int
  buf_size : Int
  recv_kind : RecvKind
deriving DecidableEq, Repr

def receiver : ReceiverBehavior :=
  { comm_port := 5000
    buf_size := 1500
    recv_kind := .recvack }

/-- `app_main` of `noc_test.c`: the list of `hf_spawn` calls made on a node,
as a function of `hf_cpuid()`. -/
def app_main (cpuid : Int) : List SpawnCall :=
  if cpuid = 2 then [⟨.sender, 0, 0, 0, "sender", 4096⟩]
  else [⟨.receiver, 0, 0, 0, "receiver", 4096⟩]

/-! ## Theorems -/

/-- Claim C10: for every pair of strings and every `n ≤ 0`, `strncmp`
returns `0`, and it does so without inspecting either string (the result is
the same for arbitrary other strings). -/
theorem strncmp_nonpos (s1 s2 : Nat → Int) (n : Int) (h : n ≤ 0) :
    strncmp s1 s2 n = 0 ∧ ∀ t1 t2 : Nat → Int, strncmp s1 s2 n = strncmp t1 t2 n := by
  have h0 : ∀ a b : Nat → Int, strncmp a b n = 0 := by
    intro a b
    unfold strncmp strncmpAux
    have hn : ¬ (0 ≤ n - 1) := by omega
    simp [hn]
  exact ⟨h0 s1 s2, fun t1 t2 => by rw [h0, h0]⟩

/-- Witness for C10 at `n = 0` and two strings that differ everywhere. -/
theorem strncmp_nonpos_witness :
    strncmp (fun _ => 65) (fun _ => 66) 0 = 0 :=
  (strncmp_nonpos (fun _ => 65) (fun _ => 66) 0 (by decide)).1

/-- Claim C7: after `clear_pcb`, the real-time selector is the
rate-monotonic scheduler, the best-effort selector is priority round-robin,
and the cooperative/preemptive context-switch, interrupt and tick-time
counters are all zero. -/
theorem clear_pcb_defaults :
    clear_pcb.sched_rt = .sched_rma ∧
    clear_pcb.sched_be = .sched_priorityrr ∧
    clear_pcb.coop_cswitch = 0 ∧
    clear_pcb.preempt_cswitch = 0 ∧
    clear_pcb.interrupts = 0 ∧
    clear_pcb.tick_time = 0 :=
  ⟨rfl, rfl, rfl, rfl, rfl, rfl⟩

/-- Every slot below `k` is cleared by the `clear_tcb` loop. -/
theorem clear_tcb_loop_get (nameLen : Nat) (tbl : Nat → TCB) :
    ∀ k i, i < k → clear_tcb_loop nameLen tbl k i = cleared_tcb nameLen := by
  intro k
  induction k with
  | zero => intro i hi; omega
  | succ k ih =>
    intro i hi
    by_cases hik : i = k
    · subst hik
      simp [clear_tcb_loop, Function.update]
    · have : i < k := by omega
      simp [clear_tcb_loop, Function.update, hik, ih i this]

/-- Claim C6: after `clear_tcb`, every slot `i < MAX_TASKS` is free: its id
is `-1`, its state is `TASK_IDLE`, its priority, delay, real-time
parameters (period, capacity, deadline and their remainders) and the
accounting counters (`rtjobs`, `bgjobs`, `deadline_misses`) are all zero,
and no stack is allocated. -/
theorem clear_tcb_clears (maxTasks nameLen : Nat) (tbl : Nat → TCB) (i : Nat)
    (h : i < maxTasks) :
    let t := (clear_tcb maxTasks nameLen tbl).1 i
    t.id = -1 ∧ t.state = .TASK_IDLE ∧ t.priority = 0 ∧ t.delay = 0 ∧
    t.period = 0 ∧ t.capacity = 0 ∧ t.deadline = 0 ∧
    t.capacity_rem = 0 ∧ t.deadline_rem = 0 ∧
    t.rtjobs = 0 ∧ t.bgjobs = 0 ∧ t.deadline_misses = 0 ∧
    t.pstack = none ∧ t.stack_size = 0 := by
  have hg : (clear_tcb maxTasks nameLen tbl).1 i = cleared_tcb nameLen :=
    clear_tcb_loop_get nameLen tbl maxTasks i h
  simp [hg, cleared_tcb]

/-- Witness for C6 at a table of 4 dirty slots, slot 2. -/
theorem clear_tcb_clears_witness :
    2 < 4 ∧
    (let t := (clear_tcb 4 3 (fun j =>
        { cleared_tcb 3 with id := (j : Int), state := .TASK_RUNNING })).1 2
     t.id = -1 ∧ t.state = .TASK_IDLE ∧ t.priority = 0 ∧ t.delay = 0 ∧
     t.period = 0 ∧ t.capacity = 0 ∧ t.deadline = 0 ∧
     t.capacity_rem = 0 ∧ t.deadline_rem = 0 ∧
     t.rtjobs = 0 ∧ t.bgjobs = 0 ∧ t.deadline_misses = 0 ∧
     t.pstack = none ∧ t.stack_size = 0) :=
  ⟨by decide,
   clear_tcb_clears 4 3 (fun j =>
     { cleared_tcb 3 with id := (j : Int), state := .TASK_RUNNING }) 2 (by decide)⟩

/-- Claim C5: `init_queues` creates exactly four queues (run, delay,
real-time, aperiodic), each with fixed capacity `MAX_TASKS`; if any of the
four creations fails, the kernel panics with `PANIC_OOM`. -/
theorem init_queues_correct (maxTasks : Nat) (ok : Nat → Bool) :
    ((ok 0 = true ∧ ok 1 = true ∧ ok 2 = true ∧ ok 3 = true) →
      init_queues maxTasks ok =
        .ok (⟨maxTasks⟩, ⟨maxTasks⟩, ⟨maxTasks⟩, ⟨maxTasks⟩)) ∧
    ((ok 0 = false ∨ ok 1 = false ∨ ok 2 = false ∨ ok 3 = false) →
      init_queues maxTasks ok = .error .PANIC_OOM) := by
  constructor
  · rintro ⟨h0, h1, h2, h3⟩
    simp [init_queues, hf_queue_create, h0, h1, h2, h3]
  · intro h
    cases h0 : ok 0 <;> cases h1 : ok 1 <;> cases h2 : ok 2 <;> cases h3 : ok 3 <;>
      simp_all [init_queues, hf_queue_create]

/-- Witness for C5: all four creations succeed; the third creation fails. -/
theorem init_queues_correct_witness :
    init_queues 8 (fun _ => true) = .ok (⟨8⟩, ⟨8⟩, ⟨8⟩, ⟨8⟩) ∧
    init_queues 8 (fun i => decide (i < 2)) = .error .PANIC_OOM :=
  ⟨(init_queues_correct 8 (fun _ => true)).1 ⟨rfl, rfl, rfl, rfl⟩,
   (init_queues_correct 8 (fun i => decide (i < 2))).2 (.inr (.inr (.inl rfl)))⟩

/-- Claim C4: on the node with cpu id 2, `app_main` spawns only the sender,
which loops sending a 1500-byte buffer with `hf_sendack` to cpu 3, port
5000, channel 0, timeout 500 ms; on every other node it spawns only the
receiver, which owns port 5000 and receives with `hf_recvack`. -/
theorem app_main_spec (cpu : Int) :
    (cpu = 2 → app_main cpu = [⟨.sender, 0, 0, 0, "sender", 4096⟩]) ∧
    (cpu ≠ 2 → app_main cpu = [⟨.receiver, 0, 0, 0, "receiver", 4096⟩]) ∧
    sender.sendack.target_cpu = 3 ∧
    sender.sendack.target_port = 5000 ∧
    sender.sendack.size = 1500 ∧
    sender.buf_size = 1500 ∧
    sender.sendack.channel = 0 ∧
    sender.sendack.timeout = 500 ∧
    receiver.comm_port = 5000 ∧
    receiver.recv_kind = .recvack := by
  refine ⟨?_, ?_, rfl, rfl, rfl, rfl, rfl, rfl, rfl, rfl⟩ <;>
    intro h <;> simp [app_main, h]

/-- Witness for C4 at cpu 2 (sender node) and cpu 0 (a receiver node). -/
theorem app_main_spec_witness :
    app_main 2 = [⟨.sender, 0, 0, 0, "sender", 4096⟩] ∧
    app_main 0 = [⟨.receiver, 0, 0, 0, "receiver", 4096⟩] :=
  ⟨(app_main_spec 2).1 rfl, (app_main_spec 0).2.1 (by decide)⟩

/-- Claim C3: whenever the polling server has selected an aperiodic entry,
if `server_fuel` is at least the entry's capacity the fuel drops by exactly
that capacity and the entry is not re-queued; otherwise the entry's
capacity is decreased by `server_fuel`, the fuel becomes `0`, and the entry
is appended to the tail of the aperiodic queue. -/
theorem serveEntry_budget (fuel : Int) (e : AperiodicEntry) (q : List AperiodicEntry) :
    (e.capacity ≤ fuel →
      serveEntry fuel e q = (fuel - e.capacity, q, false)) ∧
    (fuel < e.capacity →
      serveEntry fuel e q =
        (0, q ++ [{ e with capacity := e.capacity - fuel }], true)) := by
  constructor <;> intro h
  · simp [serveEntry, h]
  · have h' : ¬ e.capacity ≤ fuel := by omega
    simp [serveEntry, h']

/-- Witness for C3: enough fuel (6 against 2), and short fuel (2 against 5). -/
theorem serveEntry_budget_witness :
    serveEntry 6 ⟨1, 2⟩ [] = (4, [], false) ∧
    serveEntry 2 ⟨1, 5⟩ [] = (0, [⟨1, 3⟩], true) :=
  ⟨(serveEntry_budget 6 ⟨1, 2⟩ []).1 (by decide),
   (serveEntry_budget 2 ⟨1, 5⟩ []).2 (by decide)⟩

/-- Claim C1, counterexample: with server capacity `C = 6`, a period that
serves one entry of capacity 2 and then finds the queue empty yields with
`server_fuel = 4`; the next period then starts with `server_fuel = 4`, not
`C = 6` — the refill fires only when the fuel is exactly `0`, so unused
capacity IS preserved into the next period. -/
theorem server_refill_cex :
    serverIterate 6 6 [⟨1, 2⟩] = (4, [], .serveRun 1 false) ∧
    serverIterate 6 4 [] = (4, [], .serveYield) ∧
    serverRefill 4 6 = 4 ∧ (4 : Int) ≠ 6 := by
  decide

/-- Claim C1 (amended): at the top of each server-loop pass, `server_fuel`
is refilled to `C` only when it has reached `0`; otherwise its previous
value — including capacity left unused in the previous period — is kept,
and an empty-queue pass carries exactly that value into the next period. -/
theorem server_refill_only_when_exhausted (C fuel : Int) (q : List AperiodicEntry) :
    (fuel = 0 → serverRefill fuel C = C) ∧
    (fuel ≠ 0 → serverRefill fuel C = fuel) ∧
    serverIterate C fuel q = serverIterate C (serverRefill fuel C) q ∧
    (q = [] → (serverIterate C fuel q).1 = serverRefill fuel C) := by
  refine ⟨fun h => by simp [serverRefill, h],
          fun h => by simp [serverRefill, h], ?_, ?_⟩
  · by_cases hf : fuel = 0
    · by_cases hC : C = 0 <;> simp [serverIterate, serverRefill, hf, hC]
    · simp [serverIterate, serverRefill, hf]
  · intro hq
    subst hq
    simp [serverIterate]

/-- Witness for C1's amended claim at `C = 6`, `fuel = 4`, empty queue. -/
theorem server_refill_only_when_exhausted_witness :
    serverRefill 4 6 = (4 : Int) ∧ (serverIterate 6 4 []).1 = serverRefill 4 6 :=
  ⟨(server_refill_only_when_exhausted 6 4 []).2.1 (by decide),
   (server_refill_only_when_exhausted 6 4 []).2.2.2 rfl⟩

/-- The polling-server spawn call of `main`, as written in the source:
`hf_spawn(polling_server_task, 20, 6, 20, "polling server", 1024)`. -/
def polling_server_spawn : SpawnCall :=
  ⟨.polling_server_task, 20, 6, 20, "polling server", 1024⟩

/-- Claim C2, counterexample: no boot spawn call gives the polling server
capacity 6 when the arguments are read with the spec's signature
`spawn(entry, period, priority, capacity, name, stack_size)` — the 4th
argument of the polling-server call is 20, and 6 is the 3rd. -/
theorem main_spawns_capacity_cex :
    ¬ ∃ c ∈ main_spawns,
        c.entry = .polling_server_task ∧ c.period = 20 ∧ c.capacity = 6 := by
  decide

/-- Claim C2 (amended): the boot sequence's second spawn call is
`hf_spawn(polling_server_task, 20, 6, 20, "polling server", 1024)`; its
period is 20 (a real-time task), but read with the spec's signature its
priority argument is 6 and its capacity argument is 20 — the spec's stated
capacity 6 sits in the 3rd position, not the 4th. -/
theorem main_spawns_polling_server :
    main_spawns.get? 1 = some polling_server_spawn ∧
    polling_server_spawn.period = 20 ∧
    0 < polling_server_spawn.period ∧
    polling_server_spawn.priority = 6 ∧
    polling_server_spawn.capacity = 20 ∧
    polling_server_spawn.name = "polling server" ∧
    polling_server_spawn.stack_size = 1024 := by
  refine ⟨rfl, rfl, by decide, rfl, rfl, rfl, rfl⟩

/-- Bit 31 test: for `den < 2 ^ 32`, `den & (1 << 31)` vanishes exactly when
`den < 2 ^ 31`. -/
theorem and_two_pow_31 (den : Nat) (h : den < 2 ^ 32) :
    den &&& (1 <<< 31) = 0 ↔ den < 2 ^ 31 := by
  have h1 : (1 : Nat) <<< 31 = 2 ^ 31 := by
    rw [Nat.shiftLeft_eq, one_mul]
  rw [h1, Nat.and_two_pow]
  have hd2 : den / 2 ^ 31 < 2 := by
    have hpow : (2 : Nat) ^ 32 = 2 ^ 31 * 2 := by ring
    exact Nat.div_lt_of_lt_mul (hpow ▸ h)
  have e1 : 2 ^ 31 * (den / 2 ^ 31) + den % 2 ^ 31 = den := Nat.div_add_mod den (2 ^ 31)
  have e2 : den % 2 ^ 31 < 2 ^ 31 := Nat.mod_lt _ (by positivity)
  have e3 : den / 2 ^ 31 % 2 = den / 2 ^ 31 := Nat.mod_eq_of_lt (by omega)
  rw [Nat.testBit_to_div_mod, e3]
  constructor
  · intro hz
    have hne : den / 2 ^ 31 ≠ 1 := by
      intro he
      rw [he] at hz; norm_num at hz
    have : den / 2 ^ 31 = 0 := by omega
    omega
  · intro hlt
    have : den / 2 ^ 31 = 0 := by
      have := Nat.div_eq_of_lt hlt
      simpa using this
    rw [this]; norm_num

theorem nat_lor_bit (a : Bool) (m : Nat) (b : Bool) (n : Nat) :
    (Nat.bit a m) ||| (Nat.bit b n) = Nat.bit (a || b) (m ||| n) :=
  Nat.bitwise_bit rfl a m b n

/-- `res |= bit` is plain addition when `res` has no bits at or below the
position of `bit = 2 ^ j`. -/
theorem lor_two_pow_add : ∀ (j m : Nat), (m * 2 ^ (j + 1)) ||| 2 ^ j = m * 2 ^ (j + 1) + 2 ^ j
  | 0, m => by
    have h := nat_lor_bit false m true 0
    simp [Nat.bit_val] at h
    have e : m * 2 ^ 1 = 2 * m := by ring
    rw [e, pow_zero]
    omega
  | j + 1, m => by
    have ih := lor_two_pow_add j m
    have h := nat_lor_bit false (m * 2 ^ (j + 1)) false (2 ^ j)
    simp [Nat.bit_val] at h
    rw [ih] at h
    have g1 : m * 2 ^ (j + 2) = 2 * (m * 2 ^ (j + 1)) := by ring
    have g2 : (2 : Nat) ^ (j + 1) = 2 * 2 ^ j := by ring
    calc m * 2 ^ (j + 2) ||| 2 ^ (j + 1)
        = 2 * (m * 2 ^ (j + 1)) ||| 2 * 2 ^ j := by rw [← g1, ← g2]
      _ = 2 * (m * 2 ^ (j + 1) + 2 ^ j) := h
      _ = m * 2 ^ (j + 2) + 2 ^ (j + 1) := by ring

/-- Invariant of the first `__udivmodsi4` loop: starting from `den0 * 2 ^ j`
and `bit = 2 ^ j` with enough fuel, the loop ends in the same shape with the
guard false. -/
theorem shiftLoop_spec : ∀ (fuel : Nat), ∀ (j den0 num : Nat), 0 < den0 →
    den0 * 2 ^ j < 2 ^ 32 → 31 - j < fuel →
    ∃ k, j ≤ k ∧ den0 * 2 ^ k < 2 ^ 32 ∧
      udivShiftLoop fuel num (den0 * 2 ^ j) (2 ^ j) = (den0 * 2 ^ k, 2 ^ k) ∧
      ¬ (den0 * 2 ^ k < num ∧ (den0 * 2 ^ k) &&& (1 <<< 31) = 0) := by
  intro fuel
  induction fuel with
  | zero => intro j den0 num _ _ h2; omega
  | succ fuel ih =>
    intro j den0 num h0 h1 h2
    by_cases hc : den0 * 2 ^ j < num ∧ (2 : Nat) ^ j ≠ 0 ∧ (den0 * 2 ^ j) &&& (1 <<< 31) = 0
    · have hlt : den0 * 2 ^ j < 2 ^ 31 := (and_two_pow_31 _ h1).1 hc.2.2
      have hble : (2 : Nat) ^ j ≤ den0 * 2 ^ j := Nat.le_mul_of_pos_left _ h0
      have hj : j < 31 := by
        have hb : (2 : Nat) ^ j < 2 ^ 31 := lt_of_le_of_lt hble hlt
        exact (Nat.pow_lt_pow_iff_right (by norm_num)).1 hb
      have hnext : den0 * 2 ^ (j + 1) < 2 ^ 32 := by
        have e : den0 * 2 ^ (j + 1) = 2 * (den0 * 2 ^ j) := by ring
        have e32 : (2 : Nat) ^ 32 = 2 * 2 ^ 31 := by ring
        omega
      have hm1 : ((den0 * 2 ^ j) <<< 1) % 2 ^ 32 = den0 * 2 ^ (j + 1) := by
        have e : (den0 * 2 ^ j) <<< 1 = den0 * 2 ^ (j + 1) := by
          rw [Nat.shiftLeft_eq]; ring
        rw [e, Nat.mod_eq_of_lt hnext]
      have hm2 : ((2 : Nat) ^ j <<< 1) % 2 ^ 32 = 2 ^ (j + 1) := by
        have e : (2 : Nat) ^ j <<< 1 = 2 ^ (j + 1) := by
          rw [Nat.shiftLeft_eq]; ring
        have hle : (2 : Nat) ^ (j + 1) ≤ den0 * 2 ^ (j + 1) := Nat.le_mul_of_pos_left _ h0
        rw [e, Nat.mod_eq_of_lt (lt_of_le_of_lt hle hnext)]
      rw [udivShiftLoop, if_pos hc, hm1, hm2]
      obtain ⟨k, hk, hklt, heq, hexit⟩ := ih (j + 1) den0 num h0 hnext (by omega)
      exact ⟨k, by omega, hklt, heq, hexit⟩
    · rw [udivShiftLoop, if_neg hc]
      refine ⟨j, le_refl _, h1, rfl, ?_⟩
      intro hcon
      exact hc ⟨hcon.1, by positivity, hcon.2⟩

/-- The second loop is inert once `bit` has reached `0`. -/
theorem bitLoop_zero : ∀ (fuel num den res : Nat),
    udivBitLoop fuel num den 0 res = (num, res)
  | 0, _, _, _ => rfl
  | fuel + 1, num, den, res => by simp [udivBitLoop]

/-- Invariant of the second `__udivmodsi4` loop (restoring division): with
`den = den0 * 2 ^ j`, `bit = 2 ^ j`, a partial remainder `num < 2 * den`
and an accumulator `res` with no bits at or below position `j`, the loop
computes the exact quotient and remainder by `den0`. -/
theorem bitLoop_spec : ∀ (j : Nat), ∀ (fuel num den0 res : Nat), 0 < den0 →
    num < den0 * 2 ^ (j + 1) → res % 2 ^ (j + 1) = 0 → j < fuel →
    udivBitLoop fuel num (den0 * 2 ^ j) (2 ^ j) res = (num % den0, res + num / den0) := by
  intro j
  induction j with
  | zero =>
    intro fuel num den0 res h0 hnum hres hfuel
    match fuel, hfuel with
    | fuel + 1, _ =>
      rw [udivBitLoop, if_pos (by norm_num : (2 : Nat) ^ 0 ≠ 0)]
      have hden : den0 * 2 ^ 0 = den0 := by ring
      have hbit : (2 : Nat) ^ 0 = 1 := pow_zero 2
      rw [hden, hbit]
      have hsr1 : (1 : Nat) >>> 1 = 0 := rfl
      by_cases hle : den0 ≤ num
      · rw [if_pos hle]
        have hlor : res ||| 1 = res + 1 := by
          have hd : res = res / 2 * 2 ^ (0 + 1) := by
            have := Nat.div_add_mod res 2
            have h2 : res % 2 = 0 := by simpa using hres
            have e : (2 : Nat) ^ (0 + 1) = 2 := by norm_num
            omega
          calc res ||| 1 = res / 2 * 2 ^ (0 + 1) ||| 2 ^ 0 := by rw [← hd, pow_zero]
            _ = res / 2 * 2 ^ (0 + 1) + 2 ^ 0 := lor_two_pow_add 0 (res / 2)
            _ = res + 1 := by rw [← hd, pow_zero]
        simp only [hsr1, hlor, bitLoop_zero]
        have hnum2 : num < 2 * den0 := by
          have e : den0 * 2 ^ (0 + 1) = 2 * den0 := by ring
          omega
        have hmod : num % den0 = num - den0 := by
          rw [Nat.mod_eq_sub_mod hle, Nat.mod_eq_of_lt (by omega)]
        have hdiv : num / den0 = 1 := by
          rw [Nat.div_eq_sub_div h0 hle, Nat.div_eq_of_lt (by omega)]
        rw [hmod, hdiv]
      · rw [if_neg hle]
        simp only [hsr1, bitLoop_zero]
        have hlt : num < den0 := by omega
        rw [Nat.mod_eq_of_lt hlt, Nat.div_eq_of_lt hlt, Nat.add_zero]
  | succ j ih =>
    intro fuel num den0 res h0 hnum hres hfuel
    match fuel, hfuel with
    | fuel + 1, hfuel =>
      rw [udivBitLoop, if_pos (pow_ne_zero (j + 1) (by norm_num : (2 : Nat) ≠ 0))]
      have hsr1 : (den0 * 2 ^ (j + 1)) >>> 1 = den0 * 2 ^ j := by
        rw [Nat.shiftRight_eq_div_pow]
        have e : den0 * 2 ^ (j + 1) = den0 * 2 ^ j * 2 := by ring
        have e1 : (2 : Nat) ^ 1 = 2 := by norm_num
        rw [e, e1, Nat.mul_div_cancel _ (by norm_num : (0 : Nat) < 2)]
      have hsr2 : ((2 : Nat) ^ (j + 1)) >>> 1 = 2 ^ j := by
        rw [Nat.shiftRight_eq_div_pow]
        have e : (2 : Nat) ^ (j + 1) = 2 ^ j * 2 := by ring
        have e1 : (2 : Nat) ^ 1 = 2 := by norm_num
        rw [e, e1, Nat.mul_div_cancel _ (by norm_num : (0 : Nat) < 2)]
      have hdvd : 2 ^ (j + 1) ∣ res := by
        have h1 : 2 ^ (j + 1) ∣ 2 ^ (j + 2) := pow_dvd_pow 2 (by omega)
        exact dvd_trans h1 (Nat.dvd_of_mod_eq_zero hres)
      by_cases hle : den0 * 2 ^ (j + 1) ≤ num
      · rw [if_pos hle]
        have hlor : res ||| 2 ^ (j + 1) = res + 2 ^ (j + 1) := by
          obtain ⟨c, hc⟩ := Nat.dvd_of_mod_eq_zero hres
          have e : res = c * 2 ^ (j + 1 + 1) := by rw [hc]; ring
          calc res ||| 2 ^ (j + 1) = c * 2 ^ (j + 1 + 1) ||| 2 ^ (j + 1) := by rw [← e]
            _ = c * 2 ^ (j + 1 + 1) + 2 ^ (j + 1) := lor_two_pow_add (j + 1) c
            _ = res + 2 ^ (j + 1) := by rw [← e]
        simp only [hsr1, hsr2, hlor]
        have hnum' : num - den0 * 2 ^ (j + 1) < den0 * 2 ^ (j + 1) := by
          have e : den0 * 2 ^ (j + 1 + 1) = 2 * (den0 * 2 ^ (j + 1)) := by ring
          omega
        have hres' : (res + 2 ^ (j + 1)) % 2 ^ (j + 1) = 0 := by
          obtain ⟨c, hc⟩ := hdvd
          rw [hc, ← Nat.mul_succ, Nat.mul_mod_right]
        rw [ih fuel (num - den0 * 2 ^ (j + 1)) den0 (res + 2 ^ (j + 1)) h0 hnum' hres' (by omega)]
        have hsplit : num = den0 * 2 ^ (j + 1) + (num - den0 * 2 ^ (j + 1)) := by omega
        have hmod : num % den0 = (num - den0 * 2 ^ (j + 1)) % den0 := by
          conv_lhs => rw [hsplit]
          rw [Nat.mul_add_mod]
        have hdiv : num / den0 = 2 ^ (j + 1) + (num - den0 * 2 ^ (j + 1)) / den0 := by
          conv_lhs => rw [hsplit]
          rw [Nat.mul_add_div h0]
        rw [hmod, hdiv]
        congr 1
        omega
      · rw [if_neg hle]
        simp only [hsr1, hsr2]
        have hnum' : num < den0 * 2 ^ (j + 1) := by omega
        have hres' : res % 2 ^ (j + 1) = 0 := by
          obtain ⟨c, hc⟩ := hdvd
          rw [hc, Nat.mul_mod_right]
        exact ih fuel num den0 res h0 hnum' hres' (by omega)

/-- Claim C8: for every `num` and every nonzero `den` (32-bit unsigned),
`__udivmodsi4(num, den, 0)` is the exact quotient and
`__udivmodsi4(num, den, 1)` is the exact remainder. -/
theorem udivmodsi4_correct (num den : Nat)
    (hnum : num < 2 ^ 32) (hden : den < 2 ^ 32) (hden0 : den ≠ 0) :
    udivmodsi4 num den 0 = num / den ∧ udivmodsi4 num den 1 = num % den := by
  have h0 : 0 < den := Nat.pos_of_ne_zero hden0
  obtain ⟨k, hk, hklt, heq, hexit⟩ :=
    shiftLoop_spec 32 0 den num h0 (by simpa using hden) (by norm_num)
  have heq' : udivShiftLoop 32 num den 1 = (den * 2 ^ k, 2 ^ k) := by
    have e1 : den * 2 ^ 0 = den := by ring
    have e2 : (2 : Nat) ^ 0 = 1 := pow_zero 2
    rw [e1, e2] at heq
    exact heq
  have hnumlt : num < den * 2 ^ (k + 1) := by
    rcases not_and_or.1 hexit with h | h
    · push_neg at h
      have e : den * 2 ^ (k + 1) = 2 * (den * 2 ^ k) := by ring
      have hp : 0 < den * 2 ^ k := by positivity
      omega
    · have hge : 2 ^ 31 ≤ den * 2 ^ k := by
        by_contra hcon
        exact h ((and_two_pow_31 _ hklt).2 (by omega))
      have e : den * 2 ^ (k + 1) = 2 * (den * 2 ^ k) := by ring
      have e32 : (2 : Nat) ^ 32 = 2 * 2 ^ 31 := by ring
      omega
  have hkfuel : k < 33 := by
    have h1 : (2 : Nat) ^ k ≤ den * 2 ^ k := Nat.le_mul_of_pos_left _ h0
    have h2 : (2 : Nat) ^ k < 2 ^ 32 := lt_of_le_of_lt h1 hklt
    have := (Nat.pow_lt_pow_iff_right (by norm_num : 1 < 2)).1 h2
    omega
  have hbit := bitLoop_spec k 33 num den 0 h0 hnumlt (by simp) hkfuel
  constructor
  · show (let s := udivShiftLoop 32 num den 1;
          let r := udivBitLoop 33 num s.1 s.2 0;
          if (0 : Int) ≠ 0 then r.1 else r.2) = num / den
    rw [heq']
    simp only [hbit]
    norm_num
  · show (let s := udivShiftLoop 32 num den 1;
          let r := udivBitLoop 33 num s.1 s.2 0;
          if (1 : Int) ≠ 0 then r.1 else r.2) = num % den
    rw [heq']
    simp only [hbit]
    norm_num

/-- Witness for C8 at `num = 1000000007`, `den = 97`. -/
theorem udivmodsi4_correct_witness :
    udivmodsi4 1000000007 97 0 = 1000000007 / 97 ∧
    udivmodsi4 1000000007 97 1 = 1000000007 % 97 :=
  udivmodsi4_correct 1000000007 97 (by norm_num) (by norm_num) (by norm_num)

/-- Truncating remainder negates with its dividend. -/
theorem tmod_neg_left (a b : Int) : (-a).tmod b = -(a.tmod b) := by
  rw [Int.tmod_def, Int.tmod_def, Int.neg_tdiv]
  ring

/-- `natAbs` of the truncating remainder is the `Nat` remainder of the
absolute values (divisor nonnegative). -/
theorem natAbs_tmod (a b : Int) (hb : 0 ≤ b) : (a.tmod b).natAbs = a.natAbs % b.natAbs := by
  have hnat : ∀ (m : Nat), ((m : Int).tmod b).natAbs = m % b.natAbs := by
    intro m
    rw [Int.tmod_eq_emod (by positivity) hb]
    obtain ⟨n, rfl⟩ := Int.eq_ofNat_of_zero_le hb
    simp only [Int.natAbs_ofNat]
    omega
  rcases Int.natAbs_eq a with h | h
  · rw [h, hnat, Int.natAbs_ofNat]
  · rw [h, tmod_neg_left, Int.natAbs_neg, hnat]
    simp [Int.natAbs_abs]

/-- Table agreement, nonnegative remainders: entries `35 + r` of the `itoa`
table are the standard digit characters. -/
theorem itoaChar_pos (r : Nat) (h : r < 36) : itoaChar (35 + (r : Int)) = digitChar36 r := by
  revert h
  revert r
  decide

/-- Table agreement, negative remainders: entries `35 - r` of the `itoa`
table are the standard digit characters as well. -/
theorem itoaChar_neg (r : Nat) (h : r < 36) : itoaChar (35 - (r : Int)) = digitChar36 r := by
  revert h
  revert r
  decide

/-- A nonzero truncating quotient has the sign of the dividend. -/
theorem tdiv_sign (i base : Int) (hb : 2 ≤ base) (hq : i.tdiv base ≠ 0) :
    (i.tdiv base < 0 ↔ i < 0) := by
  constructor
  · intro h
    by_contra hi
    push_neg at hi
    have hnn : 0 ≤ i.tdiv base := Int.tdiv_nonneg hi (by omega)
    omega
  · intro h
    have hneg : i.tdiv base = -((-i).tdiv base) := by
      rw [Int.neg_tdiv, neg_neg]
    have hnn : 0 ≤ (-i).tdiv base := Int.tdiv_nonneg (by omega) (by omega)
    omega

/-- The character `itoa` writes in one pass is the standard digit character
of `|i| mod base`, for either sign of `i`. -/
theorem itoaLoop_digit (base i : Int) (hb2 : 2 ≤ base) (hb36 : base ≤ 36) :
    itoaChar (35 + (i - i.tdiv base * base)) = digitChar36 (i.natAbs % base.toNat) := by
  have et : i - i.tdiv base * base = i.tmod base := by
    rw [Int.tmod_def]; ring
  have hr : (i.tmod base).natAbs = i.natAbs % base.natAbs := natAbs_tmod i base (by omega)
  have hbn : base.natAbs = base.toNat := by omega
  rw [hbn] at hr
  have hrlt : i.natAbs % base.toNat < 36 := by
    have h1 : i.natAbs % base.toNat < base.toNat := Nat.mod_lt _ (by omega)
    omega
  rw [et]
  by_cases hi : 0 ≤ i
  · have hnn : 0 ≤ i.tmod base := Int.tmod_nonneg base hi
    have he : i.tmod base = ((i.natAbs % base.toNat : Nat) : Int) := by
      rw [← hr]
      exact (Int.natAbs_of_nonneg hnn).symm
    rw [he]
    exact itoaChar_pos _ hrlt
  · have hnp : i.tmod base ≤ 0 := by
      have h1 : i.tmod base = -((-i).tmod base) := by
        rw [tmod_neg_left, neg_neg]
      have h2 : 0 ≤ (-i).tmod base := Int.tmod_nonneg base (by omega)
      omega
    have he : i.tmod base = -((i.natAbs % base.toNat : Nat) : Int) := by
      omega
    rw [he]
    have e2 : (35 : Int) + -((i.natAbs % base.toNat : Nat) : Int) =
        35 - ((i.natAbs % base.toNat : Nat) : Int) := by ring
    rw [e2]
    exact itoaChar_neg _ hrlt

/-- Invariant of the `itoa` digit loop: with enough fuel it produces exactly
the little-endian base-`base` digits of `|i|` (one `0` digit when `i = 0`),
and the final `tmp_value` is negative exactly when `i` is. -/
theorem itoaLoop_spec (base : Int) (hb2 : 2 ≤ base) (hb36 : base ≤ 36) :
    ∀ (fuel : Nat) (i : Int), i.natAbs < 2 ^ (fuel + 1) →
      ∃ t : Int,
        itoaLoop base (fuel + 1) i =
          ((if i = 0 then [0] else Nat.digits base.toNat i.natAbs).map digitChar36, t) ∧
        (t < 0 ↔ i < 0) := by
  have hb1 : 1 < base.toNat := by omega
  have hbn : base.natAbs = base.toNat := by omega
  intro fuel
  induction fuel with
  | zero =>
    intro i hi
    have hq : i.tdiv base = 0 := by
      have h1 : (i.tdiv base).natAbs = i.natAbs / base.natAbs := Int.natAbs_tdiv i base
      have h2 : i.natAbs / base.natAbs = 0 := Nat.div_eq_of_lt (by omega)
      omega
    refine ⟨i, ?_, Iff.rfl⟩
    rw [itoaLoop, hq]
    simp only [if_pos rfl]
    have hd := itoaLoop_digit base i hb2 hb36
    rw [hq] at hd
    simp only [zero_mul, sub_zero] at hd ⊢
    rw [hd]
    by_cases hi0 : i = 0
    · subst hi0
      simp
    · have hpos : 0 < i.natAbs := by omega
      have hlt : i.natAbs < base.toNat := by
        have h1 : (i.tdiv base).natAbs = i.natAbs / base.toNat := by
          have h0 := Int.natAbs_tdiv i base
          rw [hbn] at h0
          exact h0
        rw [hq] at h1
        simp at h1
        exact (Nat.div_eq_zero_iff (by omega)).1 h1.symm
      rw [if_neg hi0, Nat.digits_def' hb1 hpos, Nat.div_eq_of_lt hlt]
      simp
  | succ fuel ih =>
    intro i hi
    by_cases hq : i.tdiv base = 0
    · refine ⟨i, ?_, Iff.rfl⟩
      rw [itoaLoop, hq]
      simp only [if_pos rfl]
      have hd := itoaLoop_digit base i hb2 hb36
      rw [hq] at hd
      simp only [zero_mul, sub_zero] at hd ⊢
      rw [hd]
      by_cases hi0 : i = 0
      · subst hi0
        simp
      · have hpos : 0 < i.natAbs := by omega
        have hlt : i.natAbs < base.toNat := by
          have h1 : (i.tdiv base).natAbs = i.natAbs / base.toNat := by
            have h0 := Int.natAbs_tdiv i base
            rw [hbn] at h0
            exact h0
          rw [hq] at h1
          simp at h1
          exact (Nat.div_eq_zero_iff (by omega)).1 h1.symm
        rw [if_neg hi0, Nat.digits_def' hb1 hpos, Nat.div_eq_of_lt hlt]
        simp
    · have hqabs : (i.tdiv base).natAbs = i.natAbs / base.toNat := by
        have h1 := Int.natAbs_tdiv i base
        rw [hbn] at h1
        exact h1
      have hqsmall : (i.tdiv base).natAbs < 2 ^ (fuel + 1) := by
        rw [hqabs]
        have h1 : i.natAbs / base.toNat ≤ i.natAbs / 2 :=
          Nat.div_le_div_left (by omega) (by omega)
        have h2 : (2 : Nat) ^ (fuel + 1 + 1) = 2 * 2 ^ (fuel + 1) := by ring
        omega
      obtain ⟨t, hteq, htsign⟩ := ih (i.tdiv base) hqsmall
      refine ⟨t, ?_, ?_⟩
      · rw [itoaLoop, if_neg hq, hteq]
        have hi0 : i ≠ 0 := by
          intro h
          subst h
          simp [Int.zero_tdiv] at hq
        have hqpos : 0 < i.natAbs := by omega
        have hd := itoaLoop_digit base i hb2 hb36
        rw [if_neg hi0, Nat.digits_def' hb1 hqpos]
        have hdiv : i.natAbs / base.toNat = (i.tdiv base).natAbs := hqabs.symm
        rw [hdiv, if_neg hq]
        simp only [List.map_cons]
        rw [hd]
      · rw [htsign]
        exact tdiv_sign i base hb2 hq

/-- Claim C9: for every 32-bit signed `i` and every base in `[2, 36]`,
`itoa(i, s, base)` stores the standard base-`base` digit string of `i`
(with a leading `'-'` when `i` is negative); for every base outside
`[2, 36]` it stores the empty string. -/
theorem itoa_correct (i base : Int) (hlo : -(2 ^ 31) ≤ i) (hhi : i < 2 ^ 31) :
    (2 ≤ base ∧ base ≤ 36 → itoa i base = itoaSpec i base) ∧
    ((base < 2 ∨ 36 < base) → itoa i base = []) := by
  constructor
  · rintro ⟨hb2, hb36⟩
    have hbnot : ¬ (base < 2 ∨ 36 < base) := by omega
    have hna : i.natAbs < 2 ^ (32 + 1) := by
      have e : (2 : Nat) ^ (32 + 1) = 2 ^ 33 := by norm_num
      omega
    obtain ⟨t, heq, hsign⟩ := itoaLoop_spec base hb2 hb36 32 i hna
    have h33 : itoaLoop base 33 i =
        ((if i = 0 then [0] else Nat.digits base.toNat i.natAbs).map digitChar36, t) := heq
    unfold itoa
    rw [if_neg hbnot]
    simp only [h33]
    by_cases hi : i < 0
    · have ht : t < 0 := hsign.2 hi
      have hi0 : i ≠ 0 := by omega
      rw [if_pos ht]
      unfold itoaSpec
      rw [if_pos hi]
      simp [List.reverse_append]
    · have ht : ¬ t < 0 := fun h => hi (hsign.1 h)
      rw [if_neg ht]
      unfold itoaSpec
      rw [if_neg hi]
      simp
  · intro h
    unfold itoa
    rw [if_pos h]

/-- Witness for C9 at `i = -1234`, `base = 10` (and a bad base `37`). -/
theorem itoa_correct_witness :
    itoa (-1234) 10 = itoaSpec (-1234) 10 ∧ itoa (-1234) 37 = [] :=
  ⟨(itoa_correct (-1234) 10 (by norm_num) (by norm_num)).1 (by norm_num),
   (itoa_correct (-1234) 37 (by norm_num) (by norm_num)).2 (by norm_num)⟩
